import Mathlib

/-!
Verification of the binary-search-tree core of the DSA repository.

The authoritative implementation lives in `src/datastructures/trees/bintree.py`
(classes `Node` and `BinarySearchTree`) and `src/algorithms/traversals.py`
(the five traversal producers).  The repository also contains an older
duplicate, `src/bintree.py`; where a claim depends on that duplicate its
relevant Python object semantics (slotted attribute access, default-argument
evaluation) are modelled separately near the end of this file.

Modelling conventions:
- Python's sentinel nodes (`Node(SENTINEL)`, key = the `SENTINEL` marker,
  children `None`) become the `Node.sentinel` constructor; every non-sentinel
  node carries a key and two child nodes, exactly as in the source where
  `insert` always attaches two fresh sentinel children.
- Keys are a type with a `LinearOrder`: the source compares keys only with
  `<`, `>` and `==`, and the spec requires a total order.
- In-place mutation (`node.key = ...`, `Node.substitute`, `Node.eject`) is
  rendered functionally: each operation returns the tree value that the
  mutated object graph denotes afterwards.  `_binarysearch`'s descent is fused
  into `insert`/`remove`, which rebuild the (unchanged) path above the node
  that the Python code mutates in place.
- `remove` raising `ValueError` (the KeyNotFound condition) is modelled with
  `Option`: `none` is the raise, and since the source mutates nothing before
  raising, the caller's tree is unchanged.
- Python generators are modelled as the full (finite) list of yielded keys.
-/

set_option linter.unusedSectionVars false

namespace DSA

/-- Source class `Node` of `src/datastructures/trees/bintree.py`.  A node is
either the sentinel (`Node(SENTINEL)`: key is the `SENTINEL` marker, no live
children) or a real node with a key and two child nodes. -/
inductive Node (α : Type) where
  | sentinel : Node α
  | node (key : α) (left : Node α) (right : Node α) : Node α
deriving DecidableEq

variable {α : Type} [LinearOrder α]

/-- Source `Node._issentinel`: `self.key is SENTINEL`.  In this embedding a
key equal to the sentinel marker is exactly the `sentinel` constructor. -/
def Node.issentinel : Node α → Bool
  | .sentinel => true
  | .node _ _ _ => false

/-- Source `Node.__bool__`: `not self._issentinel` — a node is truthy iff it
is not a sentinel. -/
def Node.toBool (n : Node α) : Bool := !n.issentinel

/-- Source `Node.substitute`: overwrite all slots of `self` with `other`'s.
Functionally, the node's denotation afterwards is simply `other`. -/
def Node.substitute (_self other : Node α) : Node α := other

/-- Number of vertices including sentinels (used as a termination measure for
the explicit-stack and explicit-queue traversal loops). -/
def Node.size : Node α → Nat
  | .sentinel => 1
  | .node _ l r => 1 + l.size + r.size

/-- Number of non-sentinel nodes — the "node count" of the tree. -/
def Node.nodeCount : Node α → Nat
  | .sentinel => 0
  | .node _ l r => 1 + l.nodeCount + r.nodeCount

/-- The multiset of keys stored in the (sub)tree: the data-model "key set". -/
def keys : Node α → Multiset α
  | .sentinel => 0
  | .node k l r => k ::ₘ (keys l + keys r)

/-- Source `_inorder` (inner generator of `inorder` in
`src/algorithms/traversals.py`): left subtree, own key, right subtree. -/
def Node.inorder : Node α → List α
  | .sentinel => []
  | .node k l r => Node.inorder l ++ k :: Node.inorder r

/-- Source `_preorder`: own key, left subtree, right subtree. -/
def Node.preorder : Node α → List α
  | .sentinel => []
  | .node k l r => k :: (Node.preorder l ++ Node.preorder r)

/-- Source `_postorder`: left subtree, right subtree, own key. -/
def Node.postorder : Node α → List α
  | .sentinel => []
  | .node k l r => (Node.postorder l ++ Node.postorder r) ++ [k]

/-- Source `BinarySearchTree._binarysearch`, iterating from the given node:
go left when `key < node.key`, right when `key > node.key`, stop on equality
or on reaching a sentinel.  Returns the node where the descent culminated
(the found node, or the sentinel). -/
def Node.binarysearch : Node α → α → Node α
  | .sentinel, _ => .sentinel
  | .node k l r, key =>
      if key < k then Node.binarysearch l key
      else if k < key then Node.binarysearch r key
      else .node k l r

/-- Source `BinarySearchTree.search`: run the binary search and report
whether it culminated at a truthy (non-sentinel) node. -/
def Node.search (n : Node α) (key : α) : Bool := (n.binarysearch key).toBool

/-- Source `BinarySearchTree.insert`: run the `_binarysearch` descent; if it
lands on a non-sentinel node the key already exists and nothing changes
(duplicates are silently dropped); if it lands on a sentinel, that sentinel is
promoted in place to a node with the new key and two fresh sentinel children.
The pure rendering rebuilds the untouched descent path. -/
def Node.insert : Node α → α → Node α
  | .sentinel, key => .node key .sentinel .sentinel
  | .node k l r, key =>
      if key < k then .node k (Node.insert l key) r
      else if k < key then .node k l (Node.insert r key)
      else .node k l r

/-- Source loop `maxnode = left; while right := maxnode.right: maxnode = right`
inside `Node.eject`: starting from a node with key `k` and right child `r`,
follow right children until a sentinel right child is reached, and return that
node's key — the maximum (in-order predecessor) key. -/
def maxnodeKey (k : α) : Node α → α
  | .sentinel => k
  | .node k1 _ r1 => maxnodeKey k1 r1

/-- Effect of `maxnode.eject()` on the subtree the loop started from: the
rightmost node (whose right child is a sentinel) is removed.  Per the source,
that final ejection is the one-descendant case (`substitute` with the left
child) when the left child is truthy, and the leaf case (`substitute` with a
fresh sentinel) otherwise; both amount to replacing it by its left child. -/
def ejectMax : Node α → Node α
  | .sentinel => .sentinel
  | .node k l r =>
      match r with
      | .sentinel => l
      | .node .. => .node k l (ejectMax r)

/-- Source `Node.eject`: remove this node's key while preserving the BST
shape.  Case 1 (two truthy children): copy the in-order predecessor's key —
the maximum of the left branch — into this node and eject that predecessor.
Case 2 (one truthy child): `substitute` this node with that child.
Case 3 (leaf): `substitute` this node with a fresh sentinel. -/
def Node.eject : Node α → Node α
  | .sentinel => .sentinel
  | .node _ (.node lk ll lr) (.node rk rl rr) =>
      .node (maxnodeKey lk lr) (ejectMax (.node lk ll lr)) (.node rk rl rr)
  | .node _ .sentinel r => r
  | .node _ l .sentinel => l

/-- Source `BinarySearchTree.remove`: run the `_binarysearch` descent; on a
truthy result eject that node in place, otherwise raise `ValueError` (the
KeyNotFound condition), modelled as `none`.  Nothing is mutated on the raise
path. -/
def Node.remove : Node α → α → Option (Node α)
  | .sentinel, _ => none
  | .node k l r, key =>
      if key < k then (Node.remove l key).map fun l1 => .node k l1 r
      else if k < key then (Node.remove r key).map fun r1 => .node k l r1
      else some (Node.eject (.node k l r))

/-- Spec §3 BST property: at every non-sentinel node, all keys of the left
subtree are smaller and all keys of the right subtree are greater than the
node's key. -/
def IsBST : Node α → Prop
  | Node.sentinel => True
  | Node.node k l r =>
      (∀ x ∈ Node.inorder l, x < k) ∧ (∀ x ∈ Node.inorder r, k < x) ∧
        IsBST l ∧ IsBST r

instance decIsBST : (n : Node α) → Decidable (IsBST n)
  | .sentinel => .isTrue (by simp [IsBST])
  | .node k l r =>
      haveI := decIsBST l
      haveI := decIsBST r
      decidable_of_iff
        ((∀ x ∈ Node.inorder l, x < k) ∧ (∀ x ∈ Node.inorder r, k < x) ∧
          IsBST l ∧ IsBST r)
        (by simp [IsBST])

/-- Source class `BinarySearchTree`: a single `_root` slot. -/
structure BinarySearchTree (α : Type) where
  root : Node α
deriving DecidableEq

/-- Source `BinarySearchTree.__init__`: the root starts as a fresh sentinel. -/
def BinarySearchTree.empty : BinarySearchTree α := ⟨.sentinel⟩

/-- Tree-level `insert`. -/
def BinarySearchTree.insert (t : BinarySearchTree α) (key : α) :
    BinarySearchTree α := ⟨t.root.insert key⟩

/-- Tree-level `remove`; `none` is the raised KeyNotFound `ValueError`. -/
def BinarySearchTree.remove (t : BinarySearchTree α) (key : α) :
    Option (BinarySearchTree α) := (t.root.remove key).map fun n => ⟨n⟩

/-- Tree-level `search`. -/
def BinarySearchTree.search (t : BinarySearchTree α) (key : α) : Bool :=
  t.root.search key

/-- Source `preorder` of `src/algorithms/traversals.py`. -/
def preorder (t : BinarySearchTree α) : List α := t.root.preorder

/-- Source `inorder` of `src/algorithms/traversals.py`. -/
def inorder (t : BinarySearchTree α) : List α := t.root.inorder

/-- Source `postorder` of `src/algorithms/traversals.py`. -/
def postorder (t : BinarySearchTree α) : List α := t.root.postorder

/-- Source `depthfirst` loop state: `stack.pop()` removes the LAST Python list
element, so the Lean list holds the stack top first.  Popping a truthy node
yields its key and pushes right then left (left ends up on top). -/
def depthfirstAux : List (Node α) → List α
  | [] => []
  | .sentinel :: rest => depthfirstAux rest
  | .node k l r :: rest => k :: depthfirstAux (l :: r :: rest)
termination_by q => (q.map Node.size).sum
decreasing_by
  · simp [Node.size]
  · simp [Node.size]; omega

/-- Source `depthfirst`: explicit-stack traversal started at the root. -/
def depthfirst (t : BinarySearchTree α) : List α := depthfirstAux [t.root]

/-- Source `breadthfirst` loop state: `queue.pop(0)` removes the first
element and children are appended at the end (left before right). -/
def breadthfirstAux : List (Node α) → List α
  | [] => []
  | .sentinel :: rest => breadthfirstAux rest
  | .node k l r :: rest => k :: breadthfirstAux (rest ++ [l, r])
termination_by q => (q.map Node.size).sum
decreasing_by
  · simp [Node.size]
  · simp [Node.size, List.sum_append]; omega

/-- Source `breadthfirst`: explicit-queue traversal started at the root. -/
def breadthfirst (t : BinarySearchTree α) : List α := breadthfirstAux [t.root]

/-- A single public mutating call on the tree. -/
inductive Op (α : Type) where
  | insert (key : α)
  | remove (key : α)

/-- Effect of one call on the tree value.  A `remove` of an absent key raises
after mutating nothing, so the caller's tree is unchanged. -/
def applyOp (t : BinarySearchTree α) : Op α → BinarySearchTree α
  | .insert k => t.insert k
  | .remove k => (t.remove k).getD t

/-- The tree obtained from a fresh empty tree by a sequence of
`insert`/`remove` calls. -/
def runOps (ops : List (Op α)) : BinarySearchTree α :=
  ops.foldl applyOp BinarySearchTree.empty

/-! Helper lemmas about the embedded operations. -/

theorem sorted_append_iff (l₁ l₂ : List α) :
    (l₁ ++ l₂).Sorted (· < ·) ↔
      l₁.Sorted (· < ·) ∧ l₂.Sorted (· < ·) ∧ ∀ a ∈ l₁, ∀ b ∈ l₂, a < b := by
  simp [List.Sorted, List.pairwise_append]

theorem mem_inorder_insert (n : Node α) (k x : α) :
    x ∈ (n.insert k).inorder ↔ x ∈ n.inorder ∨ x = k := by
  induction n with
  | sentinel => simp [Node.insert, Node.inorder]
  | node key l r ihl ihr =>
      by_cases h1 : k < key
      · simp only [Node.insert, if_pos h1, Node.inorder, List.mem_append,
          List.mem_cons, ihl]
        tauto
      · by_cases h2 : key < k
        · simp only [Node.insert, if_neg h1, if_pos h2, Node.inorder,
            List.mem_append, List.mem_cons, ihr]
          tauto
        · have hk : k = key := le_antisymm (le_of_not_lt h2) (le_of_not_lt h1)
          subst hk
          simp only [Node.insert, if_neg h1, if_neg h2, Node.inorder,
            List.mem_append, List.mem_cons]
          tauto

theorem insert_isBST {n : Node α} (h : IsBST n) (k : α) : IsBST (n.insert k) := by
  induction n with
  | sentinel => simp [Node.insert, IsBST, Node.inorder]
  | node key l r ihl ihr =>
      simp only [IsBST] at h
      obtain ⟨bl, br, Bl, Br⟩ := h
      by_cases h1 : k < key
      · simp only [Node.insert, if_pos h1, IsBST]
        refine ⟨?_, br, ihl Bl, Br⟩
        intro x hx
        rcases (mem_inorder_insert l k x).mp hx with h | h
        · exact bl x h
        · exact h ▸ h1
      · by_cases h2 : key < k
        · simp only [Node.insert, if_neg h1, if_pos h2, IsBST]
          refine ⟨bl, ?_, Bl, ihr Br⟩
          intro x hx
          rcases (mem_inorder_insert r k x).mp hx with h | h
          · exact br x h
          · exact h ▸ h2
        · simp only [Node.insert, if_neg h1, if_neg h2, IsBST]
          exact ⟨bl, br, Bl, Br⟩

theorem isBST_sorted {n : Node α} (h : IsBST n) : n.inorder.Sorted (· < ·) := by
  induction n with
  | sentinel => simp [Node.inorder]
  | node k l r ihl ihr =>
      simp only [IsBST] at h
      obtain ⟨bl, br, Bl, Br⟩ := h
      simp only [Node.inorder]
      rw [sorted_append_iff]
      refine ⟨ihl Bl, ?_, ?_⟩
      · rw [List.sorted_cons]
        exact ⟨br, ihr Br⟩
      · intro a ha b hb
        rcases List.mem_cons.mp hb with hb | hb
        · exact hb ▸ bl a ha
        · exact lt_trans (bl a ha) (br b hb)

theorem sorted_isBST {n : Node α} (h : n.inorder.Sorted (· < ·)) : IsBST n := by
  induction n with
  | sentinel => simp [IsBST]
  | node k l r ihl ihr =>
      simp only [Node.inorder] at h
      rw [sorted_append_iff] at h
      obtain ⟨h1, h2, h3⟩ := h
      rw [List.sorted_cons] at h2
      simp only [IsBST]
      refine ⟨?_, h2.1, ihl h1, ihr h2.2⟩
      intro x hx
      exact h3 x hx k (List.mem_cons_self k _)

theorem ejectMax_inorder (r : Node α) : ∀ (k : α) (l : Node α),
    Node.inorder (ejectMax (.node k l r)) ++ [maxnodeKey k r] =
      Node.inorder (.node k l r) := by
  induction r with
  | sentinel =>
      intro k l
      simp [ejectMax, maxnodeKey, Node.inorder]
  | node k1 l1 r1 ih1 ih2 =>
      intro k l
      have h := ih2 k1 l1
      simp only [ejectMax, maxnodeKey, Node.inorder] at h ⊢
      rw [List.append_assoc, List.cons_append, h]

theorem eject_inorder (k : α) (l r : Node α) :
    Node.inorder (Node.eject (.node k l r)) = Node.inorder l ++ Node.inorder r := by
  match l, r with
  | .sentinel, r => simp [Node.eject, Node.inorder]
  | .node lk ll lr, .sentinel => simp [Node.eject, Node.inorder]
  | .node lk ll lr, .node rk rl rr =>
      have h := ejectMax_inorder lr lk ll
      simp only [Node.eject, Node.inorder] at h ⊢
      rw [← h, List.append_assoc, List.singleton_append]

theorem mem_left_of_lt {key k : α} {l r : Node α}
    (br : ∀ x ∈ Node.inorder r, key < x)
    (hm : k ∈ Node.inorder (.node key l r)) (hlt : k < key) :
    k ∈ Node.inorder l := by
  simp only [Node.inorder, List.mem_append, List.mem_cons] at hm
  rcases hm with h | h | h
  · exact h
  · exact absurd h (ne_of_lt hlt)
  · exact absurd (br k h) (lt_asymm hlt)

theorem mem_right_of_gt {key k : α} {l r : Node α}
    (bl : ∀ x ∈ Node.inorder l, x < key)
    (hm : k ∈ Node.inorder (.node key l r)) (hgt : key < k) :
    k ∈ Node.inorder r := by
  simp only [Node.inorder, List.mem_append, List.mem_cons] at hm
  rcases hm with h | h | h
  · exact absurd (bl k h) (lt_asymm hgt)
  · exact absurd h (ne_of_gt hgt)
  · exact h

theorem remove_of_not_mem {n : Node α} {k : α} (h : k ∉ n.inorder) :
    n.remove k = none := by
  induction n with
  | sentinel => simp [Node.remove]
  | node key l r ihl ihr =>
      simp only [Node.inorder, List.mem_append, List.mem_cons] at h
      push_neg at h
      obtain ⟨h1, h2, h3⟩ := h
      rcases lt_trichotomy k key with hlt | heq | hgt
      · simp [Node.remove, hlt, ihl h1]
      · exact absurd heq h2
      · simp [Node.remove, lt_asymm hgt, hgt, ihr h3]

theorem remove_of_mem {n : Node α} (hb : IsBST n) {k : α} (hm : k ∈ n.inorder) :
    ∃ n1, n.remove k = some n1 ∧ n1.inorder = n.inorder.erase k := by
  induction n with
  | sentinel => simp [Node.inorder] at hm
  | node key l r ihl ihr =>
      simp only [IsBST] at hb
      obtain ⟨bl, br, Bl, Br⟩ := hb
      rcases lt_trichotomy k key with hlt | heq | hgt
      · have hml : k ∈ l.inorder := mem_left_of_lt br hm hlt
        obtain ⟨l1, e1, e2⟩ := ihl Bl hml
        refine ⟨.node key l1 r, ?_, ?_⟩
        · simp [Node.remove, hlt, e1]
        · simp only [Node.inorder, e2]
          rw [List.erase_append_left _ hml]
      · subst heq
        have hnl : k ∉ l.inorder := fun h => absurd (bl k h) (lt_irrefl k)
        refine ⟨Node.eject (.node k l r), ?_, ?_⟩
        · simp [Node.remove]
        · rw [eject_inorder]
          simp only [Node.inorder]
          rw [List.erase_append_right _ hnl, List.erase_cons_head]
      · have hmr : k ∈ r.inorder := mem_right_of_gt bl hm hgt
        obtain ⟨r1, e1, e2⟩ := ihr Br hmr
        have hnl : k ∉ l.inorder := fun h => absurd (lt_trans (bl k h) hgt) (by
          intro hc
          exact absurd hc (lt_irrefl k))
        refine ⟨.node key l r1, ?_, ?_⟩
        · simp [Node.remove, lt_asymm hgt, hgt, e1]
        · simp only [Node.inorder, e2]
          rw [List.erase_append_right _ (fun h => absurd (bl k h) (lt_asymm hgt)),
            List.erase_cons_tail (not_beq_of_ne (ne_of_lt hgt))]

theorem binarysearch_mem {n : Node α} {k : α}
    (h : (n.binarysearch k).toBool = true) : k ∈ n.inorder := by
  induction n with
  | sentinel =>
      simp [Node.binarysearch, Node.toBool, Node.issentinel] at h
  | node key l r ihl ihr =>
      simp only [Node.binarysearch] at h
      by_cases h1 : k < key
      · rw [if_pos h1] at h
        simp only [Node.inorder, List.mem_append, List.mem_cons]
        exact Or.inl (ihl h)
      · by_cases h2 : key < k
        · rw [if_neg h1, if_pos h2] at h
          simp only [Node.inorder, List.mem_append, List.mem_cons]
          exact Or.inr (Or.inr (ihr h))
        · have hk : k = key := le_antisymm (le_of_not_lt h2) (le_of_not_lt h1)
          simp only [Node.inorder, List.mem_append, List.mem_cons]
          exact Or.inr (Or.inl hk)

theorem mem_binarysearch {n : Node α} (hb : IsBST n) {k : α}
    (hm : k ∈ n.inorder) : (n.binarysearch k).toBool = true := by
  induction n with
  | sentinel => simp [Node.inorder] at hm
  | node key l r ihl ihr =>
      simp only [IsBST] at hb
      obtain ⟨bl, br, Bl, Br⟩ := hb
      simp only [Node.binarysearch]
      rcases lt_trichotomy k key with hlt | heq | hgt
      · rw [if_pos hlt]
        exact ihl Bl (mem_left_of_lt br hm hlt)
      · rw [if_neg (heq ▸ lt_irrefl k), if_neg (heq ▸ lt_irrefl k)]
        simp [Node.toBool, Node.issentinel]
      · rw [if_neg (lt_asymm hgt), if_pos hgt]
        exact ihr Br (mem_right_of_gt bl hm hgt)

theorem insert_of_mem {n : Node α} (hb : IsBST n) {k : α} (hm : k ∈ n.inorder) :
    n.insert k = n := by
  induction n with
  | sentinel => simp [Node.inorder] at hm
  | node key l r ihl ihr =>
      simp only [IsBST] at hb
      obtain ⟨bl, br, Bl, Br⟩ := hb
      rcases lt_trichotomy k key with hlt | heq | hgt
      · simp [Node.insert, hlt, ihl Bl (mem_left_of_lt br hm hlt)]
      · subst heq
        simp [Node.insert, lt_irrefl]
      · simp [Node.insert, lt_asymm hgt, hgt, ihr Br (mem_right_of_gt bl hm hgt)]

theorem mem_foldl_insert_of_mem (as : List α) (x : α) (t : Node α)
    (h : x ∈ t.inorder) : x ∈ (as.foldl Node.insert t).inorder := by
  induction as generalizing t with
  | nil => simpa using h
  | cons a as ih => exact ih _ ((mem_inorder_insert t a x).mpr (Or.inl h))

theorem mem_foldl_insert (ks : List α) (k : α) (hk : k ∈ ks) (t : Node α) :
    k ∈ (ks.foldl Node.insert t).inorder := by
  induction ks generalizing t with
  | nil => simp at hk
  | cons a as ih =>
      rcases List.mem_cons.mp hk with h | h
      · subst h
        exact mem_foldl_insert_of_mem as k _
          ((mem_inorder_insert t k k).mpr (Or.inr rfl))
      · exact ih h _

theorem isBST_foldl_insert (ks : List α) (t : Node α) (h : IsBST t) :
    IsBST (ks.foldl Node.insert t) := by
  induction ks generalizing t with
  | nil => simpa using h
  | cons a as ih => exact ih _ (insert_isBST h a)

theorem isBST_applyOp {t : BinarySearchTree α} (h : IsBST t.root) (op : Op α) :
    IsBST (applyOp t op).root := by
  cases op with
  | insert k => exact insert_isBST h k
  | remove k =>
      by_cases hm : k ∈ t.root.inorder
      · obtain ⟨n1, e1, e2⟩ := remove_of_mem h hm
        have hrw : applyOp t (.remove k) = ⟨n1⟩ := by
          simp [applyOp, BinarySearchTree.remove, e1]
        rw [hrw]
        apply sorted_isBST
        rw [e2]
        exact (isBST_sorted h).sublist (List.erase_sublist k _)
      · have hrw : applyOp t (.remove k) = t := by
          simp [applyOp, BinarySearchTree.remove, remove_of_not_mem hm]
        rw [hrw]
        exact h

theorem isBST_runOps (ops : List (Op α)) : IsBST (runOps ops).root := by
  suffices h : ∀ t : BinarySearchTree α,
      IsBST t.root → IsBST (ops.foldl applyOp t).root by
    exact h _ (by simp [BinarySearchTree.empty, IsBST])
  induction ops with
  | nil => intro t h; simpa using h
  | cons op ops ih => intro t h; exact ih _ (isBST_applyOp h op)

theorem preorder_perm_inorder (n : Node α) : List.Perm n.preorder n.inorder := by
  induction n with
  | sentinel => simp [Node.preorder, Node.inorder]
  | node k l r ihl ihr =>
      simp only [Node.preorder, Node.inorder]
      exact ((ihl.append ihr).cons k).trans List.perm_middle.symm

theorem postorder_perm_inorder (n : Node α) : List.Perm n.postorder n.inorder := by
  induction n with
  | sentinel => simp [Node.postorder, Node.inorder]
  | node k l r ihl ihr =>
      simp only [Node.postorder, Node.inorder]
      exact (((ihl.append ihr).append (List.Perm.refl [k])).trans
        (List.perm_append_singleton k _)).trans List.perm_middle.symm

theorem inorder_coe_keys (n : Node α) : (n.inorder : Multiset α) = keys n := by
  induction n with
  | sentinel => simp [Node.inorder, keys]
  | node k l r ihl ihr =>
      simp only [Node.inorder, keys]
      calc ((Node.inorder l ++ k :: Node.inorder r : List α) : Multiset α)
          = ((k :: (Node.inorder l ++ Node.inorder r) : List α) : Multiset α) :=
            Multiset.coe_eq_coe.mpr List.perm_middle
        _ = k ::ₘ ((Node.inorder l : Multiset α) + (Node.inorder r : Multiset α)) := rfl
        _ = k ::ₘ (keys l + keys r) := by rw [ihl, ihr]

theorem depthfirstAux_cons (n : Node α) : ∀ rest : List (Node α),
    depthfirstAux (n :: rest) = n.preorder ++ depthfirstAux rest := by
  induction n with
  | sentinel =>
      intro rest
      simp [depthfirstAux, Node.preorder]
  | node k l r ihl ihr =>
      intro rest
      simp [depthfirstAux, Node.preorder, ihl, ihr]

theorem depthfirst_eq_preorder (t : BinarySearchTree α) :
    depthfirst t = preorder t := by
  rw [depthfirst, preorder, depthfirstAux_cons]
  simp [depthfirstAux]

theorem breadthfirstAux_perm : (q : List (Node α)) →
    List.Perm (breadthfirstAux q) ((q.map Node.preorder).flatten)
  | [] => by simp [breadthfirstAux]
  | .sentinel :: rest => by
      have ih := breadthfirstAux_perm rest
      simpa [breadthfirstAux, Node.preorder] using ih
  | .node k l r :: rest => by
      have ih := breadthfirstAux_perm (rest ++ [l, r])
      have ih2 : List.Perm (breadthfirstAux (rest ++ [l, r]))
          (((rest.map Node.preorder).flatten) ++ (l.preorder ++ r.preorder)) := by
        simpa [List.map_append, List.flatten_append, List.append_assoc] using ih
      have ih3 := ih2.trans List.perm_append_comm
      simpa [breadthfirstAux, Node.preorder, List.append_assoc] using ih3.cons k
termination_by q => (q.map Node.size).sum
decreasing_by
  · simp [Node.size]
  · simp [Node.size, List.sum_append]; omega

theorem breadthfirst_perm_preorder (t : BinarySearchTree α) :
    List.Perm (breadthfirst t) (preorder t) := by
  have h := breadthfirstAux_perm [t.root]
  simpa [breadthfirst, preorder] using h

/-!
Models of the Python object semantics that the older duplicate module
`src/bintree.py` depends on.  That module's `Node` is declared with
`@dataclass(slots=True)`, so an instance has exactly the slots `key`,
`left`, `right`; reading any other attribute name raises `AttributeError`.
Its `bst.__init__` is declared as `def __init__(self, rootnode=Node(SENTINEL), /)`,
and Python evaluates a default argument once, at function-definition time.
-/

/-- Attribute names that the methods of `src/bintree.py` read off `Node`
instances. -/
inductive V1Attr where
  | key
  | left
  | right
  | underscoreKey
deriving DecidableEq

/-- Modelled from `src/bintree.py`: the slots of its `Node` dataclass are
exactly the three declared fields `key`, `left`, `right`. -/
def v1NodeSlots : List V1Attr := [V1Attr.key, V1Attr.left, V1Attr.right]

/-- Attribute read on a slotted `Node` instance of `src/bintree.py`: the read
succeeds exactly for slot names; `none` models the `AttributeError` raised
for any other name. -/
def v1Getattr (a : V1Attr) : Option V1Attr :=
  if a ∈ v1NodeSlots then some a else none

/-- The first operation that `Node._issentinel` of `src/bintree.py` performs
is the attribute read `self._key` (the dataclass field is named `key`; no
attribute `_key` is defined anywhere in the module), so the getter — and with
it `Node.__bool__` — raises `AttributeError` on every node before any
comparison with `SENTINEL` happens. -/
def v1IssentinelFirstRead : V1Attr := V1Attr.underscoreKey

/-- Addresses modelling Python object identity. -/
abbrev Addr := Nat

/-- An allocation counter: allocating a fresh object returns the next unused
address. -/
def allocNode (s : Nat) : Nat × Addr := (s + 1, s)

/-- Modelled from `src/bintree.py` `bst.__init__(self, rootnode=Node(SENTINEL), /)`:
the default `Node(SENTINEL)` is created once when the `def` statement is
evaluated, so every `bst()` call without an argument binds `self._root` to
that same object; no allocation happens at call time. -/
def bstInitDefault (defaultRoot : Addr) (s : Nat) : Nat × Addr :=
  (s, defaultRoot)

/-- Modelled from `src/datastructures/trees/bintree.py`
`BinarySearchTree.__init__(self, /)`: the body `self._root = Node(SENTINEL)`
allocates a fresh sentinel node on every call. -/
def binarySearchTreeInit (s : Nat) : Nat × Addr := allocNode s

/-- Concrete key sequence of the demo block at the bottom of
`src/datastructures/trees/bintree.py`. -/
def demoKeys : List Int := [9, 4, 10, 3, 6, 11, 2, 5, 7]

/-- The tree the demo block builds by inserting `demoKeys` in order. -/
def demoTree : BinarySearchTree Int :=
  demoKeys.foldl BinarySearchTree.insert BinarySearchTree.empty

theorem isBST_node_iff (k : α) (l r : Node α) :
    IsBST (Node.node k l r) ↔
      (∀ x ∈ Node.inorder l, x < k) ∧ (∀ x ∈ Node.inorder r, k < x) ∧
        IsBST l ∧ IsBST r := Iff.rfl

theorem root_foldl_insert (ks : List α) (t : BinarySearchTree α) :
    (ks.foldl BinarySearchTree.insert t).root = ks.foldl Node.insert t.root := by
  induction ks generalizing t with
  | nil => rfl
  | cons a as ih => exact ih (t.insert a)

/-! Claim theorems. -/

/-- C1: every tree obtained from the empty tree by a finite sequence of
`insert` and `remove` calls (a failed `remove` raises and leaves the tree as
it was) satisfies the BST ordering invariant at every non-sentinel node, its
inorder traversal is strictly ascending, and it holds no duplicate keys. -/
theorem C1_bst_invariant (ops : List (Op α)) :
    IsBST (runOps ops).root ∧ (inorder (runOps ops)).Sorted (· < ·) ∧
      (inorder (runOps ops)).Nodup := by
  have h := isBST_runOps ops
  have hs : (inorder (runOps ops)).Sorted (· < ·) := isBST_sorted h
  exact ⟨h, hs, hs.nodup⟩

/-- C2: building a tree by inserting each key of a list into an empty tree
makes `search` return true for every key of the list; a subsequent `remove`
of that key succeeds, and `search` then returns false. -/
theorem C2_round_trip (ks : List α) (k : α) (hk : k ∈ ks) :
    (ks.foldl BinarySearchTree.insert BinarySearchTree.empty).search k = true ∧
      ∃ t1,
        (ks.foldl BinarySearchTree.insert BinarySearchTree.empty).remove k = some t1 ∧
          t1.search k = false := by
  have hBST : IsBST (ks.foldl Node.insert (Node.sentinel : Node α)) :=
    isBST_foldl_insert ks _ (by simp [IsBST])
  have hmem := mem_foldl_insert ks k hk (Node.sentinel : Node α)
  have hroot : (ks.foldl BinarySearchTree.insert
      (BinarySearchTree.empty : BinarySearchTree α)).root =
        ks.foldl Node.insert Node.sentinel :=
    root_foldl_insert ks BinarySearchTree.empty
  constructor
  · show Node.toBool (Node.binarysearch _ k) = true
    rw [hroot]
    exact mem_binarysearch hBST hmem
  · obtain ⟨n1, e1, e2⟩ := remove_of_mem hBST hmem
    refine ⟨⟨n1⟩, ?_, ?_⟩
    · show ((ks.foldl BinarySearchTree.insert BinarySearchTree.empty).root.remove k).map _ = _
      rw [hroot, e1]
      rfl
    · have hnm : k ∉ n1.inorder := by
        rw [e2]
        intro hc
        exact absurd ((isBST_sorted hBST).nodup.mem_erase_iff.mp hc).1 (by simp)
      cases hsb : BinarySearchTree.search ⟨n1⟩ k with
      | false => rfl
      | true => exact absurd (binarysearch_mem hsb) hnm

/-- C2 witness at the demo keys with key 10. -/
theorem C2_round_trip_witness :
    (10 : Int) ∈ demoKeys ∧
      ((demoKeys.foldl BinarySearchTree.insert BinarySearchTree.empty).search 10 = true ∧
        ∃ t1,
          (demoKeys.foldl BinarySearchTree.insert BinarySearchTree.empty).remove 10 = some t1 ∧
            t1.search 10 = false) :=
  ⟨by decide, C2_round_trip demoKeys 10 (by decide)⟩

/-- C3: when the removed key's node has two non-sentinel children, `eject`
replaces its key by the in-order predecessor — the maximum key of the
original left subtree, strictly below the removed key, hence never the
successor — and then removes exactly that predecessor (the rightmost left
descendant, whose right child is a sentinel) from the left subtree. -/
theorem C3_two_child_predecessor (k lk rk : α) (ll lr rl rr : Node α)
    (hb : IsBST (.node k (.node lk ll lr) (.node rk rl rr))) :
    Node.eject (.node k (.node lk ll lr) (.node rk rl rr)) =
        .node (maxnodeKey lk lr) (ejectMax (.node lk ll lr)) (.node rk rl rr)
      ∧ maxnodeKey lk lr ∈ Node.inorder (.node lk ll lr)
      ∧ (∀ x ∈ Node.inorder (.node lk ll lr), x ≤ maxnodeKey lk lr)
      ∧ maxnodeKey lk lr < k
      ∧ Node.inorder (ejectMax (.node lk ll lr)) ++ [maxnodeKey lk lr] =
          Node.inorder (.node lk ll lr) := by
  have hin := ejectMax_inorder lr lk ll
  rw [isBST_node_iff] at hb
  obtain ⟨bl, br, Bl, Br⟩ := hb
  have hmem : maxnodeKey lk lr ∈ Node.inorder (.node lk ll lr) := by
    rw [← hin]
    simp
  have hbound : ∀ x ∈ Node.inorder (.node lk ll lr), x ≤ maxnodeKey lk lr := by
    have hsort := isBST_sorted Bl
    rw [← hin, sorted_append_iff] at hsort
    intro x hx
    rw [← hin, List.mem_append] at hx
    rcases hx with hx | hx
    · exact le_of_lt (hsort.2.2 x hx _ (List.mem_singleton_self _))
    · rw [List.mem_singleton] at hx
      exact hx ▸ le_rfl
  exact ⟨rfl, hmem, hbound, bl _ hmem, hin⟩

/-- Leaves of the concrete two-child deletion example 5(3(2,4),8(7,9)). -/
def c3A : Node Int := Node.node 2 .sentinel .sentinel

/-- Leaf holding 4, the in-order predecessor of the example's root. -/
def c3B : Node Int := Node.node 4 .sentinel .sentinel

/-- Leaf holding 7 of the two-child deletion example. -/
def c3C : Node Int := Node.node 7 .sentinel .sentinel

/-- Leaf holding 9 of the two-child deletion example. -/
def c3D : Node Int := Node.node 9 .sentinel .sentinel

/-- C3 witness: delete the root of the tree 5(3(2,4),8(7,9)); the
predecessor is 4. -/
theorem C3_two_child_predecessor_witness :
    IsBST (Node.node 5 (Node.node 3 c3A c3B) (Node.node 8 c3C c3D))
      ∧ (Node.eject (Node.node 5 (Node.node 3 c3A c3B) (Node.node 8 c3C c3D)) =
          .node (maxnodeKey 3 c3B) (ejectMax (Node.node 3 c3A c3B)) (Node.node 8 c3C c3D)
        ∧ maxnodeKey 3 c3B ∈ Node.inorder (Node.node 3 c3A c3B)
        ∧ (∀ x ∈ Node.inorder (Node.node 3 c3A c3B), x ≤ maxnodeKey 3 c3B)
        ∧ maxnodeKey 3 c3B < 5
        ∧ Node.inorder (ejectMax (Node.node 3 c3A c3B)) ++ [maxnodeKey 3 c3B] =
            Node.inorder (Node.node 3 c3A c3B)) :=
  ⟨by decide, C3_two_child_predecessor 5 3 8 c3A c3B c3C c3D (by decide)⟩

/-- C4: the claim fails on `src/bintree.py`.  There `bst.remove` first runs
`_binarysearch`, whose `while node:` evaluates `Node.__bool__`, which negates
`_issentinel`, whose first operation is the attribute read `self._key` — no
slot of the `Node` dataclass — so `bst().remove(k)` raises `AttributeError`
on the very first loop test (first conjunct evaluates that failing read:
`none` models the `AttributeError`) and the `raise ValueError` that signals
KeyNotFound at the end of `remove` is never reached, on the empty tree or any
other.  In `src/datastructures/trees/bintree.py`, removing an absent key —
in particular any key from the empty tree — does signal the KeyNotFound
condition (the raised `ValueError`, modelled as `none`) with the tree's
inorder sequence unchanged, since nothing is mutated before the raise
(remaining conjuncts). -/
theorem C4_remove_absent (t : BinarySearchTree α) (k : α) (h : k ∉ inorder t) :
    v1Getattr v1IssentinelFirstRead = none
      ∧ t.remove k = none ∧ inorder ((t.remove k).getD t) = inorder t := by
  have h1 : t.root.remove k = none := remove_of_not_mem h
  refine ⟨by decide, ?_, ?_⟩ <;> simp [BinarySearchTree.remove, h1]

/-- C4 witness on the empty tree. -/
theorem C4_remove_absent_witness :
    (10 : Int) ∉ inorder (BinarySearchTree.empty : BinarySearchTree Int) ∧
      (v1Getattr v1IssentinelFirstRead = none ∧
        (BinarySearchTree.empty : BinarySearchTree Int).remove 10 = none ∧
        inorder (((BinarySearchTree.empty : BinarySearchTree Int).remove 10).getD
          BinarySearchTree.empty) = inorder (BinarySearchTree.empty : BinarySearchTree Int)) :=
  ⟨by decide, C4_remove_absent BinarySearchTree.empty 10 (by decide)⟩

/-- C5: removing a present key deletes exactly that one key — the inorder
sequence afterwards equals the previous inorder sequence with the single
occurrence of the key erased, so every other key survives in its relative
order. -/
theorem C5_remove_exactly_one (t : BinarySearchTree α) (k : α)
    (hb : IsBST t.root) (hm : k ∈ inorder t) :
    ∃ t1, t.remove k = some t1 ∧ inorder t1 = (inorder t).erase k := by
  obtain ⟨n1, e1, e2⟩ := remove_of_mem hb hm
  refine ⟨⟨n1⟩, ?_, e2⟩
  simp [BinarySearchTree.remove, e1]

/-- C5 witness: remove 10 from the demo tree. -/
theorem C5_remove_exactly_one_witness :
    IsBST (demoTree.root) ∧ (10 : Int) ∈ inorder demoTree ∧
      ∃ t1, demoTree.remove 10 = some t1 ∧
        inorder t1 = (inorder demoTree).erase 10 :=
  ⟨by decide, by decide, C5_remove_exactly_one demoTree 10 (by decide) (by decide)⟩

/-- C6: inserting a key that is already present is a no-op — the tree value
is unchanged (so insert is idempotent), no error is possible (`insert` is
total), `search` stays true, and both the inorder sequence and the node
count are unchanged. -/
theorem C6_duplicate_insert_noop (t : BinarySearchTree α) (k : α)
    (hb : IsBST t.root) (hm : k ∈ inorder t) :
    t.insert k = t ∧ (t.insert k).search k = true ∧
      inorder (t.insert k) = inorder t ∧
      (t.insert k).root.nodeCount = t.root.nodeCount := by
  have he : t.root.insert k = t.root := insert_of_mem hb hm
  have ht : t.insert k = t := by
    cases t with
    | mk root =>
        simp only [BinarySearchTree.insert, BinarySearchTree.mk.injEq]
        exact he
  refine ⟨ht, ?_, by rw [ht], by rw [ht]⟩
  rw [ht]
  exact mem_binarysearch hb hm

/-- C6 witness: re-insert 6 into the demo tree. -/
theorem C6_duplicate_insert_noop_witness :
    IsBST (demoTree.root) ∧ (6 : Int) ∈ inorder demoTree ∧
      (demoTree.insert 6 = demoTree ∧ (demoTree.insert 6).search 6 = true ∧
        inorder (demoTree.insert 6) = inorder demoTree ∧
        (demoTree.insert 6).root.nodeCount = demoTree.root.nodeCount) :=
  ⟨by decide, by decide, C6_duplicate_insert_noop demoTree 6 (by decide) (by decide)⟩

/-- C7: the five traversal producers yield the same multiset of keys — the
tree's full key set — and in addition the preorder sequence coincides with
the depth-first (explicit stack) sequence element for element. -/
theorem C7_traversal_equivalence (t : BinarySearchTree α) :
    ((preorder t : Multiset α) = keys t.root
      ∧ (inorder t : Multiset α) = keys t.root
      ∧ (postorder t : Multiset α) = keys t.root
      ∧ (depthfirst t : Multiset α) = keys t.root
      ∧ (breadthfirst t : Multiset α) = keys t.root)
      ∧ preorder t = depthfirst t := by
  have hin : (inorder t : Multiset α) = keys t.root := inorder_coe_keys t.root
  have hpre : (preorder t : Multiset α) = keys t.root := by
    rw [← hin]
    exact Multiset.coe_eq_coe.mpr (preorder_perm_inorder t.root)
  have hdf : depthfirst t = preorder t := depthfirst_eq_preorder t
  refine ⟨⟨hpre, hin, ?_, ?_, ?_⟩, hdf.symm⟩
  · rw [← hin]
    exact Multiset.coe_eq_coe.mpr (postorder_perm_inorder t.root)
  · rw [hdf]
    exact hpre
  · rw [← hpre]
    exact Multiset.coe_eq_coe.mpr (breadthfirst_perm_preorder t)

/-- C8: the concrete scenario of the source's demo block — inserting
9, 4, 10, 3, 6, 11, 2, 5, 7 into an empty tree in that order — yields the
documented inorder and breadth-first sequences, finds 10, and after
`remove(10)` no longer finds 10 and yields the documented inorder
sequence. -/
theorem C8_concrete_scenario :
    inorder demoTree = [2, 3, 4, 5, 6, 7, 9, 10, 11]
      ∧ breadthfirst demoTree = [9, 4, 10, 3, 6, 11, 2, 5, 7]
      ∧ demoTree.search 10 = true
      ∧ (demoTree.remove 10).isSome = true
      ∧ ((demoTree.remove 10).getD demoTree).search 10 = false
      ∧ inorder ((demoTree.remove 10).getD demoTree) = [2, 3, 4, 5, 6, 7, 9, 11] := by
  refine ⟨by decide, ?_, by decide, by decide, by decide, by decide⟩
  have hroot : demoTree.root =
      Node.node 9
        (Node.node 4
          (Node.node 3 (Node.node 2 .sentinel .sentinel) .sentinel)
          (Node.node 6 (Node.node 5 .sentinel .sentinel) (Node.node 7 .sentinel .sentinel)))
        (Node.node 10 .sentinel (Node.node 11 .sentinel .sentinel)) := by
    decide
  rw [breadthfirst, hroot]
  simp [breadthfirstAux]

/-- C9: the claim fails on `src/bintree.py`.  There the `_issentinel`
getter's first attribute read, `self._key`, names no slot of the `Node`
dataclass (its slots are `key`, `left`, `right`), so the is-sentinel test
raises `AttributeError` — modelled `none`, first conjunct — on every node,
including a fresh `Node(SENTINEL)`, instead of returning a boolean; the
truthiness test `__bool__`, which negates `_issentinel`, fails the same way.
In `src/datastructures/trees/bintree.py` the getter reads `self.key` and the
claimed equivalences do hold (remaining conjuncts). -/
theorem C9_issentinel_truthiness :
    v1Getattr v1IssentinelFirstRead = none
      ∧ (∀ n : Node Int,
          (n.issentinel = true ↔ n = Node.sentinel)
            ∧ (n.toBool = true ↔ n ≠ Node.sentinel))
      ∧ Node.toBool (Node.sentinel : Node Int) = false
      ∧ (∀ k : Int, ∀ l r : Node Int, Node.toBool (Node.node k l r) = true) := by
  refine ⟨by decide, ?_, by decide, ?_⟩
  · intro n
    cases n <;> simp [Node.issentinel, Node.toBool]
  · intro k l r
    rfl

/-- C10: the claim fails on `src/bintree.py`.  Its `bst.__init__` has the
default argument `rootnode=Node(SENTINEL)`, evaluated once when the `def`
statement runs, so two trees constructed as `bst()` bind `self._root` to the
SAME node object (first conjunct) and are not independent: an in-place
`insert` through one is a mutation of the other's root.  The
`BinarySearchTree.__init__` of the datastructures variant allocates a fresh
root per call (second conjunct), and for that variant a second,
independently constructed empty tree is indeed unaffected by inserts into
the first: its `search` stays false and its traversals stay empty (remaining
conjuncts, stated on the tree value `empty` that any unaffected second tree
still denotes). -/
theorem C10_root_ownership :
    ((bstInitDefault (allocNode 0).2 (allocNode 0).1).2 =
        (bstInitDefault (allocNode 0).2
          (bstInitDefault (allocNode 0).2 (allocNode 0).1).1).2)
      ∧ (binarySearchTreeInit 0).2 ≠
          (binarySearchTreeInit (binarySearchTreeInit 0).1).2
      ∧ (∀ k : α, (BinarySearchTree.empty : BinarySearchTree α).search k = false)
      ∧ inorder (BinarySearchTree.empty : BinarySearchTree α) = []
      ∧ preorder (BinarySearchTree.empty : BinarySearchTree α) = []
      ∧ breadthfirst (BinarySearchTree.empty : BinarySearchTree α) = [] := by
  refine ⟨rfl, by decide, fun k => rfl, rfl, rfl, ?_⟩
  simp [breadthfirst, BinarySearchTree.empty, breadthfirstAux]

end DSA
